import Mathlib

/-!
Verification development for the RAG subsystem of the ngo-automation
repository: chunking (`app/chunking_service.py`), embedding generation with
usage accounting (`app/embedding_service.py`) and the RAG query pipeline
(`app/rag_service.py`).  Python strings are modelled as Lean `String`
(lists of characters), Python floats as exact rationals, and the external
OpenAI / vector-store calls as explicit outcome parameters (oracles), so
that every function here is a computable shallow embedding of the source.
-/

set_option autoImplicit false

namespace NgoRag

/-! ### Character classes (Python `\s` and the punctuation used by the services) -/

/-- Python whitespace (`\s` over ASCII), as used by `str.strip`, `re.split`
and `re.findall` in `chunking_service.py`. -/
def isWs (c : Char) : Bool :=
  c = ' ' || c = '\t' || c = '\n' || c = '\r' || c = '\x0b' || c = '\x0c'

/-- The punctuation class of `_count_tokens`: `re.split` uses the
lookbehind `(?<=[.!?,;:])`. -/
def isPunct (c : Char) : Bool :=
  c = '.' || c = '!' || c = '?' || c = ',' || c = ';' || c = ':'

/-- The sentence-ending punctuation of `_split_sentence`: lookbehind `(?<=[.!?])`. -/
def isSentPunct (c : Char) : Bool :=
  c = '.' || c = '!' || c = '?'

/-! ### `str.strip` -/

/-- Python `str.strip()` on a character list: drop whitespace from both ends. -/
def pstripL (l : List Char) : List Char :=
  ((l.dropWhile isWs).reverse.dropWhile isWs).reverse

/-- Python `str.strip()` on strings. -/
def pstrip (s : String) : String :=
  String.mk (pstripL s.data)

/-! ### `ChunkingService._count_tokens`

`re.split` with pattern `\s+|(?<=[.!?,;:])` splits the text at whitespace runs and
after punctuation; `_count_tokens` counts the nonempty pieces and floors the
result at 1.  A nonempty piece begins exactly at a non-whitespace character
that is at the start of the text, or after a whitespace character, or after a
punctuation character.  `tokenStarts sep l` counts those positions; `sep`
records whether the previous character was a separator (whitespace or
punctuation), with `true` at the start of the text. -/

def tokenStarts : Bool → List Char → Nat
  | _, [] => 0
  | sep, c :: rest =>
    (if !isWs c && sep then 1 else 0) + tokenStarts (isWs c || isPunct c) rest

/-- Embedding of `ChunkingService._count_tokens` on a character list:
the count is `max(1, len([t for t in tokens if t.strip()]))`. -/
def countTokensL (l : List Char) : Nat :=
  max 1 (tokenStarts true l)

/-- Embedding of `ChunkingService._count_tokens`. -/
def countTokens (s : String) : Nat :=
  countTokensL s.data

/-! ### Python `round` on rationals

Python floats are modelled as exact rationals; `round(x, n)` is
round-half-to-even at `n` decimal digits. -/

/-- Round-half-to-even to an integer. -/
def pyRoundInt (q : ℚ) : ℤ :=
  let f := ⌊q⌋
  let frac := q - f
  if frac < 1/2 then f
  else if 1/2 < frac then f + 1
  else if f % 2 = 0 then f else f + 1

/-- Python `round(q, 3)`. -/
def round3 (q : ℚ) : ℚ :=
  (pyRoundInt (q * 1000) : ℚ) / 1000

/-- Python `round(q, 6)`. -/
def round6 (q : ℚ) : ℚ :=
  (pyRoundInt (q * 1000000) : ℚ) / 1000000

/-! ### EmbeddingService (`app/embedding_service.py`)

State = the instance counters `total_tokens` / `total_cost`.  The OpenAI
embeddings endpoint is an oracle mapping the attempt number to either a
failure (rate limit / authentication) or a response carrying the embedding
vector and `usage.prompt_tokens`. -/

/-- The mutable counters of an `EmbeddingService` instance. -/
structure EmbedState where
  total_tokens : Nat
  total_cost : ℚ
deriving DecidableEq

/-- Counter state right after `__init__` (both counters zero). -/
def initState : EmbedState := ⟨0, 0⟩

/-- Embedding of `EmbeddingService.reset_metrics`. -/
def resetMetrics (_s : EmbedState) : EmbedState := ⟨0, 0⟩

/-- The constant `self.dimensions = 1536`. -/
def embeddingDims : Nat := 1536

/-- The cost formula `cost = (tokens / 1_000_000) * 0.02`. -/
def costOf (tokens : Nat) : ℚ :=
  (tokens : ℚ) / 1000000 * (2/100)

/-- A successful response of `client.embeddings.create`: the embedding
vector of `response.data[0]` and `response.usage.prompt_tokens`. -/
structure EmbedApiResponse where
  embedding : List ℚ
  prompt_tokens : Nat
deriving DecidableEq

/-- The failure modes of the embeddings endpoint distinguished by the
source: `openai.RateLimitError` and `openai.AuthenticationError`. -/
inductive ApiFailure where
  | rateLimit : ApiFailure
  | auth : ApiFailure
deriving DecidableEq

/-- Errors raised by `generate_embedding`. -/
inductive EmbedError where
  | invalidInput : EmbedError
  | api : ApiFailure → EmbedError
  | dimensionMismatch : Nat → EmbedError
deriving DecidableEq

deriving instance DecidableEq for Except

/-- Outcome of one attempt of the body of `generate_embedding`: the returned
value or raised error, the counter state afterwards, and whether the
external API was actually called. -/
structure AttemptOutcome where
  result : Except EmbedError (List ℚ)
  state : EmbedState
  apiCalled : Bool
deriving DecidableEq

/-- One attempt of `EmbeddingService.generate_embedding` (the decorated
function body): validate the input length, call the API, increment the
usage counters, then check the vector dimension.  Note the counters are
updated before the dimension check, exactly as in the source. -/
def generateEmbeddingOnce (s : EmbedState) (text : String)
    (apiResult : Except ApiFailure EmbedApiResponse) : AttemptOutcome :=
  if (pstrip text).length < 10 then
    ⟨.error .invalidInput, s, false⟩
  else
    match apiResult with
    | .error f => ⟨.error (.api f), s, true⟩
    | .ok resp =>
      let tokens := resp.prompt_tokens
      let s' : EmbedState := ⟨s.total_tokens + tokens, s.total_cost + costOf tokens⟩
      if resp.embedding.length ≠ embeddingDims then
        ⟨.error (.dimensionMismatch resp.embedding.length), s', true⟩
      else
        ⟨.ok resp.embedding, s', true⟩

/-- Trace of a call of the decorated `generate_embedding`: final result,
final counter state, number of attempts made, number of external API calls
made. -/
structure EmbedCallTrace where
  result : Except EmbedError (List ℚ)
  state : EmbedState
  attempts : Nat
  apiCalls : Nat
deriving DecidableEq

/-- The tenacity retry loop of `generate_embedding`:
`@retry(wait=wait_exponential(...), stop=stop_after_attempt(3))`.
No `retry=` predicate is given, so the tenacity default applies: every raised
exception is retried until the attempt ceiling is reached, after which the
last error surfaces. -/
def retryLoop (text : String) (api : Nat → Except ApiFailure EmbedApiResponse) :
    Nat → Nat → Nat → EmbedState → EmbedCallTrace
  | 0, att, calls, s => ⟨.error .invalidInput, s, att, calls⟩
  | left + 1, att, calls, s =>
    let o := generateEmbeddingOnce s text (api att)
    let calls' := calls + (if o.apiCalled then 1 else 0)
    match o.result with
    | .ok v => ⟨.ok v, o.state, att + 1, calls'⟩
    | .error e =>
      if left = 0 then ⟨.error e, o.state, att + 1, calls'⟩
      else retryLoop text api left (att + 1) calls' o.state

/-- Embedding of `EmbeddingService.generate_embedding` as decorated: up to 3 attempts. -/
def generateEmbedding (s : EmbedState) (text : String)
    (api : Nat → Except ApiFailure EmbedApiResponse) : EmbedCallTrace :=
  retryLoop text api 3 0 0 s

/-- The dictionary returned by `get_cost_summary` (the constant `model` and
`dimensions` entries are omitted). -/
structure CostSummary where
  total_tokens : Nat
  total_cost : ℚ
  avg_cost_per_token : ℚ
deriving DecidableEq

/-- Embedding of `EmbeddingService.get_cost_summary`. -/
def getCostSummary (s : EmbedState) : CostSummary :=
  { total_tokens := s.total_tokens
    total_cost := round6 s.total_cost
    avg_cost_per_token :=
      if 0 < s.total_tokens then s.total_cost / (s.total_tokens : ℚ) else 0 }

/-- A well-formed embeddings response with `t` prompt tokens. -/
def goodResp (t : Nat) : EmbedApiResponse :=
  ⟨List.replicate embeddingDims 0, t⟩

/-- A fixed input text of trimmed length at least 10, passing validation. -/
def validText : String := "Financial report Q4 2025"

/-! ### RAG query pipeline (`app/rag_service.py` and `app/schemas.py`)

`RAGService.query` is modelled with its three external boundaries as
explicit outcome parameters: the question-embedding call, the
`search_similar_chunks` vector search, and the `ai_service.chat` completion
call.  The elapsed wall-clock time is likewise a parameter.  The returned
`QueryOutcome` additionally records how many completion-API calls were made
along the taken control path. -/

/-- One entry of the list returned by `search_similar_chunks`, as consumed
by `RAGService.query`: the document name, chunk text and similarity score,
the chunk id (as the outcome of `UUID(chunk_id)` — `none` when the raw
string does not parse and the constructor raises `ValueError`), and the
optional `page` entry of the chunk metadata. -/
structure SearchResult where
  document_name : String
  chunk_text : String
  similarity_score : ℚ
  chunk_id : Option Nat
  page : Option Int
deriving DecidableEq

/-- Embedding of `schemas.SourceCitation`: pydantic model with
`similarity_score: float (ge=0, le=1)` and `page_number: Optional[int] (ge=1)`. -/
structure SourceCitation where
  document_name : String
  chunk_id : Nat
  similarity_score : ℚ
  page_number : Option Int
deriving DecidableEq

/-- The pydantic constraint on `SourceCitation.page_number`:
`Optional[int]` with `ge=1`. -/
def pageOk : Option Int → Bool
  | none => true
  | some p => 1 ≤ p

/-- Build the citation of one search result, as in `RAGService.query` step 3:
parse the chunk id, round the similarity to 3 decimals, take the `page`
metadata entry if present; the result is `none` when the pydantic
validation (or the UUID parse) raises, in which case the source logs a
warning and skips the citation. -/
def mkCitation (r : SearchResult) : Option SourceCitation :=
  match r.chunk_id with
  | none => none
  | some cid =>
    let sim := round3 r.similarity_score
    if 0 ≤ sim ∧ sim ≤ 1 ∧ pageOk r.page then
      some ⟨r.document_name, cid, sim, r.page⟩
    else
      none

/-- Relation between a search result and the citation built from it:
the citation carries the document name, the parsed chunk id, the
similarity rounded to 3 decimals, and the metadata page (if any). -/
def CitationOf (r : SearchResult) (c : SourceCitation) : Prop :=
  c.document_name = r.document_name
  ∧ some c.chunk_id = r.chunk_id
  ∧ c.similarity_score = round3 r.similarity_score
  ∧ c.page_number = r.page

/-- Embedding of `schemas.RAGResponse`. -/
structure RAGResponse where
  question : String
  answer : String
  sources : List SourceCitation
  confidence : ℚ
  chunks_used : Nat
  query_time_ms : ℚ
deriving DecidableEq

/-- The `ValueError`s raised by `RAGService.query`, by pipeline stage. -/
inductive QueryError where
  | emptyQuestion : QueryError
  | embeddingFailed : String → QueryError
  | searchFailed : String → QueryError
  | generationFailed : String → QueryError
deriving DecidableEq

/-- Result of `RAGService.query` plus the number of completion-API calls
made along the taken control path. -/
structure QueryOutcome where
  result : Except QueryError RAGResponse
  completionCalls : Nat
deriving DecidableEq

/-- The fixed no-context refusal answer returned by `RAGService.query` when
the vector search yields no chunk at or above `min_similarity`. -/
def refusalAnswer : String :=
  "I don" ++ String.singleton (Char.ofNat 39) ++
    "t have information about that topic in the uploaded documents. " ++
    "Please upload additional documents or try a different question."

/-- The fallback answer substituted when the completion returns blank text. -/
def blankFallbackAnswer : String :=
  "Unable to generate answer from retrieved documents."

/-- Embedding of `RAGService.query`.  Here `embedOutcome` is the outcome of
`embedding_service.generate_embedding(question)`, `searchOutcome` the
outcome of `search_similar_chunks(...)`, `chatOutcome` the outcome of the
`ai_service.chat` completion call (its `content`), and `elapsedMs` the
measured query time. -/
def query (question : String)
    (embedOutcome : Except String (List ℚ))
    (searchOutcome : Except String (List SearchResult))
    (chatOutcome : Except String String)
    (elapsedMs : ℚ) : QueryOutcome :=
  if pstrip question = "" then ⟨.error .emptyQuestion, 0⟩
  else
    let q := pstrip question
    match embedOutcome with
    | .error e => ⟨.error (.embeddingFailed e), 0⟩
    | .ok _ =>
      match searchOutcome with
      | .error e => ⟨.error (.searchFailed e), 0⟩
      | .ok results =>
        if results.isEmpty then
          ⟨.ok { question := q, answer := refusalAnswer, sources := [],
                 confidence := 0, chunks_used := 0, query_time_ms := elapsedMs }, 0⟩
        else
          let citations := results.filterMap mkCitation
          let sims := results.map (·.similarity_score)
          match chatOutcome with
          | .error e => ⟨.error (.generationFailed e), 1⟩
          | .ok content =>
            let stripped := pstrip content
            let answer := if stripped = "" then blankFallbackAnswer else stripped
            let confidence :=
              if sims.isEmpty then 0
              else min 1 (max 0 (sims.sum / (sims.length : ℚ)))
            ⟨.ok { question := q, answer := answer, sources := citations,
                   confidence := round3 confidence, chunks_used := results.length,
                   query_time_ms := elapsedMs }, 1⟩

/-! ### `ChunkingService._split_fixed`

`re.findall` with pattern `\S+|\s+` partitions the text into maximal runs of
non-whitespace and of whitespace; the sliding window then walks this token
list, joining each window and stripping it. -/

/-- Embedding of `re.findall` with pattern `\S+|\s+`: group the characters into maximal runs
of equal whitespace-ness. -/
def tokensL : List Char → List (List Char)
  | [] => []
  | c :: rest =>
    match tokensL rest with
    | [] => [[c]]
    | [] :: gs => [c] :: gs
    | (d :: g) :: gs =>
      if isWs c = isWs d then (c :: d :: g) :: gs else [c] :: (d :: g) :: gs

/-- The window loop of `_split_fixed`, producing the token windows
`tokens[idx : idx+chunk_size]` at `idx = 0, adv, 2*adv, ...` with
`adv = max(1, chunk_size - overlap)`.  `fuel` bounds the number of
iterations; `toks.length` iterations always suffice since the index
advances by at least 1. -/
def fixedWindowsF (cs ov : Nat) (toks : List (List Char)) :
    Nat → Nat → List (List (List Char))
  | 0, _ => []
  | fuel + 1, idx =>
    if idx < toks.length then
      (toks.drop idx).take cs :: fixedWindowsF cs ov toks fuel (idx + max 1 (cs - ov))
    else []

/-- The token windows visited by `_split_fixed` on `text`. -/
def fixedWindows (text : String) (cs ov : Nat) : List (List (List Char)) :=
  fixedWindowsF cs ov (tokensL text.data) (tokensL text.data).length 0

/-- Embedding of `ChunkingService._split_fixed`: join each window back to text, strip
it, and keep it when nonempty. -/
def splitFixed (text : String) (cs ov : Nat) : List String :=
  (fixedWindows text cs ov).filterMap fun w =>
    let ct := pstripL w.flatten
    if ct.isEmpty then none else some (String.mk ct)

/-! ### `ChunkingService._split_sentence` and `_split_semantic` -/

/-- Embedding of `re.split` with pattern `(?<=[.!?])\s+`: walk the characters; a whitespace
run right after sentence punctuation separates sentences and is dropped.
`prev` is the previous character (a blank at the start), `acc` the current
sentence reversed, and the fuel is the length of the remaining input. -/
def sentSplitF : Nat → Char → List Char → List Char → List (List Char)
  | 0, _, acc, _ => [acc.reverse]
  | _ + 1, _, acc, [] => [acc.reverse]
  | fuel + 1, prev, acc, c :: rest =>
    if isWs c && isSentPunct prev then
      acc.reverse :: sentSplitF fuel ' ' [] (rest.dropWhile isWs)
    else
      sentSplitF fuel c (c :: acc) rest

/-- The sentence list of `_split_sentence`:
`[s.strip() for s in re.split(...) if s.strip()]`. -/
def sentencesOf (text : String) : List String :=
  (((sentSplitF text.data.length ' ' [] text.data).map pstripL).filter
    (fun l => !l.isEmpty)).map String.mk

/-- Embedding of the multiline `re.split` with pattern `\n\n+|(?=^#)`: split at runs of
two or more newlines (dropped), and before a `#` at a line start
(zero-width).  `atLS` records whether the position is at a line start. -/
def semSplitF : Nat → Bool → List Char → List Char → List (List Char)
  | 0, _, acc, _ => [acc.reverse]
  | _ + 1, _, acc, [] => [acc.reverse]
  | fuel + 1, atLS, acc, c :: rest =>
    if c = '\n' && rest.head? = some '\n' then
      acc.reverse :: semSplitF fuel true [] (rest.dropWhile (· = '\n'))
    else if c = '#' && atLS && !acc.isEmpty then
      acc.reverse :: semSplitF fuel false [c] rest
    else
      semSplitF fuel (c = '\n') (c :: acc) rest

/-- The section list of `_split_semantic`:
`[s.strip() for s in re.split(...) if s.strip()]`. -/
def sectionsOf (text : String) : List String :=
  (((semSplitF text.data.length true [] text.data).map pstripL).filter
    (fun l => !l.isEmpty)).map String.mk

/-- The accumulation inner loop shared by `_split_sentence` and
`_split_semantic`: take units while the running token count stays within
`chunk_size`; the first unit is always taken (`... and chunk_sentences`). -/
def accumUnits (cs : Nat) : Nat → Bool → List String → List String
  | _, _, [] => []
  | tc, started, u :: rest =>
    let t := countTokens u
    if cs < tc + t ∧ started then []
    else u :: accumUnits cs (tc + t) true rest

/-- The outer while loop shared by `_split_sentence` and `_split_semantic`:
accumulate a group at `idx`, then advance by
`max(1, len(group) - overlap)`.  Fuel as in `fixedWindowsF`. -/
def groupUnitsF (cs ov : Nat) (units : List String) :
    Nat → Nat → List (List String)
  | 0, _ => []
  | fuel + 1, idx =>
    if idx < units.length then
      let g := accumUnits cs 0 false (units.drop idx)
      g :: groupUnitsF cs ov units fuel (idx + max 1 (g.length - ov))
    else []

/-- All unit groups visited by the outer loop. -/
def groupUnits (cs ov : Nat) (units : List String) : List (List String) :=
  groupUnitsF cs ov units units.length 0

/-- Python `sep.join(parts)` at the character level. -/
def pyJoinL (sep : List Char) : List (List Char) → List Char
  | [] => []
  | [u] => u
  | u :: v :: rest => u ++ sep ++ pyJoinL sep (v :: rest)

/-- The chunk text built from one unit group: the single-space (resp.
two-newline) join of the units, stripped. -/
def chunkOfGroup (sep : String) (g : List String) : String :=
  String.mk (pstripL (pyJoinL sep.data (g.map String.data)))

/-- The groups formed by `_split_sentence` on `text`. -/
def sentenceGroups (text : String) (cs ov : Nat) : List (List String) :=
  groupUnits cs ov (sentencesOf text)

/-- The groups formed by `_split_semantic` on `text`. -/
def semanticGroups (text : String) (cs ov : Nat) : List (List String) :=
  groupUnits cs ov (sectionsOf text)

/-- Embedding of `ChunkingService._split_sentence`. -/
def splitSentence (text : String) (cs ov : Nat) : List String :=
  ((sentenceGroups text cs ov).map (chunkOfGroup " ")).filter (· ≠ "")

/-- The two-newline separator of `_split_semantic`. -/
def nl2 : String := String.mk ['\n', '\n']

/-- Embedding of `ChunkingService._split_semantic`. -/
def splitSemantic (text : String) (cs ov : Nat) : List String :=
  ((semanticGroups text cs ov).map (chunkOfGroup nl2)).filter (· ≠ "")

/-- The separator state of `tokenStarts` after reading a character list. -/
def sepAfter (sep : Bool) (l : List Char) : Bool :=
  l.foldl (fun _ c => isWs c || isPunct c) sep

/-- A text of 1200 whitespace-separated words (single spaces):
`w w ... w`. -/
def text1200 : String :=
  String.mk ((List.replicate 1199 ['w', ' ']).flatten ++ ['w'])

/-! ## Theorems -/

/-! ### Helper lemmas: embedding service -/

/-- A call with a well-formed response succeeds on the first attempt and
adds the reported token count to the counters. -/
theorem generateEmbedding_success (s : EmbedState) (t : Nat) :
    generateEmbedding s validText (fun _ => .ok (goodResp t)) =
      ⟨.ok (List.replicate embeddingDims 0),
        ⟨s.total_tokens + t, s.total_cost + costOf t⟩, 1, 1⟩ := by
  have hlen : ¬ ((pstrip validText).length < 10) := by decide
  simp [generateEmbedding, retryLoop, generateEmbeddingOnce, goodResp, hlen]

/-- C9: across successive successful embedding calls the usage counters are
additive: starting from a freshly constructed or freshly reset service,
two successful calls consuming `t1` and `t2` tokens make
`get_cost_summary().total_tokens` equal `t1 + t2`; `reset_metrics()` puts
both totals back to 0; and `avg_cost_per_token` is 0 whenever no tokens
have been consumed. -/
theorem embedding_usage_accounting (t1 t2 : Nat) (s0 : EmbedState)
    (h0 : s0.total_tokens = 0) :
    (getCostSummary (generateEmbedding (generateEmbedding (resetMetrics s0)
        validText (fun _ => .ok (goodResp t1))).state validText
        (fun _ => .ok (goodResp t2))).state).total_tokens = t1 + t2
    ∧ (getCostSummary (resetMetrics (generateEmbedding (generateEmbedding
        (resetMetrics s0) validText (fun _ => .ok (goodResp t1))).state validText
        (fun _ => .ok (goodResp t2))).state)).total_tokens = 0
    ∧ (getCostSummary (resetMetrics (generateEmbedding (generateEmbedding
        (resetMetrics s0) validText (fun _ => .ok (goodResp t1))).state validText
        (fun _ => .ok (goodResp t2))).state)).total_cost = 0
    ∧ (getCostSummary s0).avg_cost_per_token = 0 := by
  rw [generateEmbedding_success, generateEmbedding_success]
  refine ⟨?_, ?_, ?_, ?_⟩
  · simp [getCostSummary, resetMetrics]
  · simp [getCostSummary, resetMetrics]
  · simp [getCostSummary, resetMetrics, round6, pyRoundInt]
  · simp [getCostSummary, h0]

/-- Witness for C9 at `t1 = 3`, `t2 = 4`, starting state `⟨0, 7⟩`. -/
theorem embedding_usage_accounting_witness :
    (getCostSummary (generateEmbedding (generateEmbedding (resetMetrics ⟨0, 7⟩)
        validText (fun _ => .ok (goodResp 3))).state validText
        (fun _ => .ok (goodResp 4))).state).total_tokens = 3 + 4
    ∧ (getCostSummary (resetMetrics (generateEmbedding (generateEmbedding
        (resetMetrics ⟨0, 7⟩) validText (fun _ => .ok (goodResp 3))).state validText
        (fun _ => .ok (goodResp 4))).state)).total_tokens = 0
    ∧ (getCostSummary (resetMetrics (generateEmbedding (generateEmbedding
        (resetMetrics ⟨0, 7⟩) validText (fun _ => .ok (goodResp 3))).state validText
        (fun _ => .ok (goodResp 4))).state)).total_cost = 0
    ∧ (getCostSummary ⟨0, 7⟩).avg_cost_per_token = 0 :=
  embedding_usage_accounting 3 4 ⟨0, 7⟩ rfl

/-- C3 (code bug): the tenacity decorator on `generate_embedding` has no
`retry=` predicate, so it retries every exception.  An authentication
failure is attempted 3 times instead of failing immediately, and an
invalid-input rejection (trimmed length under 10) is likewise attempted 3
times — though, as claimed, it never reaches the external API.  Only the
rate-limit part of the claim (bounded retries, at most 3 attempts) matches
the code. -/
theorem embedding_retries_nontransient_failures :
    (generateEmbedding initState validText (fun _ => .error .auth)).attempts = 3
    ∧ (generateEmbedding initState validText (fun _ => .error .auth)).result
        = .error (.api .auth)
    ∧ (generateEmbedding initState "hi" (fun _ => .ok (goodResp 5))).attempts = 3
    ∧ (generateEmbedding initState "hi" (fun _ => .ok (goodResp 5))).result
        = .error .invalidInput
    ∧ (generateEmbedding initState "hi" (fun _ => .ok (goodResp 5))).apiCalls = 0
    ∧ (generateEmbedding initState validText (fun _ => .error .rateLimit)).attempts = 3 := by
  decide

/-- C10: when the API returns a vector of the wrong length, the attempt
raises a dimension-mismatch error, but only after the usage counters have
been incremented by the reported token count, so with a positive token
count the counters after the failure differ from their values before the
call (the error is not atomic with respect to the usage counters). -/
theorem embedding_dimension_mismatch_nonatomic (s : EmbedState) (t : Nat)
    (ht : 0 < t) :
    (generateEmbeddingOnce s validText (.ok ⟨List.replicate 10 0, t⟩)).result
        = .error (.dimensionMismatch 10)
    ∧ (generateEmbeddingOnce s validText (.ok ⟨List.replicate 10 0, t⟩)).state.total_tokens
        = s.total_tokens + t
    ∧ (generateEmbeddingOnce s validText (.ok ⟨List.replicate 10 0, t⟩)).state.total_cost
        = s.total_cost + costOf t
    ∧ (generateEmbeddingOnce s validText (.ok ⟨List.replicate 10 0, t⟩)).state ≠ s := by
  have hlen : ¬ ((pstrip validText).length < 10) := by decide
  refine ⟨?_, ?_, ?_, ?_⟩
  · simp [generateEmbeddingOnce, hlen, embeddingDims]
  · simp [generateEmbeddingOnce, hlen, embeddingDims]
  · simp [generateEmbeddingOnce, hlen, embeddingDims]
  · simp only [generateEmbeddingOnce, hlen, if_false]
    intro h
    have h2 := congrArg EmbedState.total_tokens h
    simp [embeddingDims] at h2
    omega

/-- Witness for C10 at counters `⟨3, 5⟩` and token count 7. -/
theorem embedding_dimension_mismatch_nonatomic_witness :
    (generateEmbeddingOnce ⟨3, 5⟩ validText (.ok ⟨List.replicate 10 0, 7⟩)).result
        = .error (.dimensionMismatch 10)
    ∧ (generateEmbeddingOnce ⟨3, 5⟩ validText (.ok ⟨List.replicate 10 0, 7⟩)).state.total_tokens
        = 3 + 7
    ∧ (generateEmbeddingOnce ⟨3, 5⟩ validText (.ok ⟨List.replicate 10 0, 7⟩)).state.total_cost
        = 5 + costOf 7
    ∧ (generateEmbeddingOnce ⟨3, 5⟩ validText (.ok ⟨List.replicate 10 0, 7⟩)).state
        ≠ (⟨3, 5⟩ : EmbedState) :=
  embedding_dimension_mismatch_nonatomic ⟨3, 5⟩ 7 (by decide)

/-! ### RAG query claims -/

/-- C1: when the retrieval step succeeds with an empty list, `query`
short-circuits: it returns the fixed refusal answer with confidence 0.0,
`chunks_used = 0` and empty sources, and makes no completion-API call
(the outcome is the same for every completion oracle, and the recorded
completion-call count is 0). -/
theorem rag_no_context_refusal (question : String) (emb : List ℚ)
    (chat : Except String String) (elapsed : ℚ)
    (hq : pstrip question ≠ "") :
    query question (.ok emb) (.ok []) chat elapsed =
      ⟨.ok { question := pstrip question, answer := refusalAnswer, sources := [],
             confidence := 0, chunks_used := 0, query_time_ms := elapsed }, 0⟩ := by
  simp [query, hq]

/-- Witness for C1 on a concrete question. -/
theorem rag_no_context_refusal_witness :
    query "What was spent on consulting" (.ok [0]) (.ok []) (.ok "ignored") 17 =
      ⟨.ok { question := pstrip "What was spent on consulting",
             answer := refusalAnswer, sources := [],
             confidence := 0, chunks_used := 0, query_time_ms := 17 }, 0⟩ :=
  rag_no_context_refusal "What was spent on consulting" [0] (.ok "ignored") 17
    (by decide)

/-- C5: in the grounded state (at least one retrieved chunk), a failure of
the completion call surfaces as an explicit error (the generation-failure
`ValueError`); it is not swallowed and not downgraded to the no-context
refusal answer. -/
theorem rag_completion_failure_propagates (question : String) (emb : List ℚ)
    (results : List SearchResult) (e : String) (elapsed : ℚ)
    (hq : pstrip question ≠ "") (hres : results ≠ []) :
    query question (.ok emb) (.ok results) (.error e) elapsed =
      ⟨.error (.generationFailed e), 1⟩ := by
  have hne : results.isEmpty = false := by
    cases results with
    | nil => exact absurd rfl hres
    | cons a l => rfl
  simp [query, hq, hne]

/-- Witness for C5 on one retrieved chunk and a failing completion. -/
theorem rag_completion_failure_propagates_witness :
    query "What was spent" (.ok [0])
        (.ok [⟨"doc.pdf", "txt", 9/10, some 1, none⟩]) (.error "boom") 5 =
      ⟨.error (.generationFailed "boom"), 1⟩ :=
  rag_completion_failure_propagates "What was spent" [0]
    [⟨"doc.pdf", "txt", 9/10, some 1, none⟩] "boom" 5 (by decide) (by decide)

/-- Evaluation of the grounded branch of `query`: with a nonempty result
list and a successful completion, the outcome is the `.ok` response whose
fields are exactly the ones assembled by the source. -/
theorem query_grounded_ok (question : String) (emb : List ℚ)
    (results : List SearchResult) (content : String) (elapsed : ℚ)
    (hq : pstrip question ≠ "") (hres : results ≠ []) :
    query question (.ok emb) (.ok results) (.ok content) elapsed =
      ⟨.ok { question := pstrip question,
             answer := if pstrip content = "" then blankFallbackAnswer
                       else pstrip content,
             sources := results.filterMap mkCitation,
             confidence := round3 (min 1 (max 0
               ((results.map SearchResult.similarity_score).sum
                 / (results.length : ℚ)))),
             chunks_used := results.length, query_time_ms := elapsed }, 1⟩ := by
  have hne : results.isEmpty = false := by
    cases results with
    | nil => exact absurd rfl hres
    | cons a l => rfl
  have hmapne : (results.map SearchResult.similarity_score).isEmpty = false := by
    cases results with
    | nil => exact absurd rfl hres
    | cons a l => rfl
  simp [query, hq, hne, hmapne]

/-- Evaluation of `pyRoundInt` below the halfway point. -/
theorem pyRoundInt_eq (q : ℚ) (f : ℤ) (h1 : (f : ℚ) ≤ q)
    (h2 : q < (f : ℚ) + 1/2) : pyRoundInt q = f := by
  have hfl : ⌊q⌋ = f := Int.floor_eq_iff.mpr ⟨h1, by linarith⟩
  simp only [pyRoundInt, hfl]
  rw [if_pos (by linarith)]

/-- Evaluation of `round3` when `q * 1000` lies in `[f, f + 1/2)`. -/
theorem round3_eq (q : ℚ) (f : ℤ) (h1 : (f : ℚ) ≤ q * 1000)
    (h2 : q * 1000 < (f : ℚ) + 1/2) : round3 q = (f : ℚ) / 1000 := by
  rw [round3, pyRoundInt_eq (q * 1000) f h1 h2]

/-- C6 counterexample: the returned confidence is not the raw clamped mean
of the similarity scores — the source rounds it to 3 decimals.  With one
retrieved chunk of similarity 0.1234 the clamped mean is 0.1234, but the
returned confidence is 0.123. -/
theorem rag_confidence_rounded_counterexample :
    (query "Quarterly spend" (.ok [0])
        (.ok [⟨"a.pdf", "txt", 1234/10000, some 1, none⟩]) (.ok "ans") 0).result
      = .ok { question := "Quarterly spend", answer := "ans",
              sources := [⟨"a.pdf", 1, 123/1000, none⟩], confidence := 123/1000,
              chunks_used := 1, query_time_ms := 0 }
    ∧ (123/1000 : ℚ)
        ≠ min 1 (max 0
            (([(⟨"a.pdf", "txt", 1234/10000, some 1, none⟩ : SearchResult)].map
                SearchResult.similarity_score).sum / 1)) := by
  have hr3 : round3 ((1234 : ℚ)/10000) = (123 : ℚ)/1000 := by
    have := round3_eq ((1234 : ℚ)/10000) 123 (by norm_num) (by norm_num)
    simpa using this
  have hclamp : min 1 (max 0 ((1234 : ℚ)/10000)) = (1234 : ℚ)/10000 := by
    rw [max_eq_right (by norm_num), min_eq_right (by norm_num)]
  constructor
  · rw [query_grounded_ok "Quarterly spend" [0]
      [⟨"a.pdf", "txt", 1234/10000, some 1, none⟩] "ans" 0 (by decide) (by decide)]
    have hcit : mkCitation ⟨"a.pdf", "txt", 1234/10000, some 1, none⟩
        = some ⟨"a.pdf", 1, 123/1000, none⟩ := by
      simp only [mkCitation, hr3]
      rw [if_pos ⟨by norm_num, by norm_num, by simp [pageOk]⟩]
    refine congrArg Except.ok ?_
    rw [RAGResponse.mk.injEq]
    refine ⟨by decide, by decide, ?_, ?_, by decide, rfl⟩
    · simp [hcit]
    · have hmean : (([(⟨"a.pdf", "txt", 1234/10000, some 1, none⟩ :
            SearchResult)].map SearchResult.similarity_score).sum
          / (([(⟨"a.pdf", "txt", 1234/10000, some 1, none⟩ :
            SearchResult)] : List SearchResult).length : ℚ)) = (1234 : ℚ)/10000 := by
        simp
      rw [hmean, hclamp, hr3]
  · simp only [List.map_cons, List.map_nil, List.sum_cons, List.sum_nil]
    rw [show ((1234 : ℚ)/10000 + 0) / 1 = (1234 : ℚ)/10000 by norm_num, hclamp]
    norm_num

/-- C6 (amended): for every grounded answer, the returned confidence is the
arithmetic mean of the retrieved similarity scores, clamped to [0,1] and
then rounded to 3 decimals; for scores 0.9 / 0.8 / 0.7 this is exactly 0.8,
independent of the completion text. -/
theorem rag_confidence_rounded_mean (question : String) (emb : List ℚ)
    (results : List SearchResult) (content : String) (elapsed : ℚ)
    (hq : pstrip question ≠ "") (hres : results ≠ []) :
    ∃ resp, (query question (.ok emb) (.ok results) (.ok content) elapsed).result
        = .ok resp
      ∧ resp.confidence = round3 (min 1 (max 0
          ((results.map SearchResult.similarity_score).sum / (results.length : ℚ)))) := by
  rw [query_grounded_ok question emb results content elapsed hq hres]
  exact ⟨_, rfl, rfl⟩

/-- Witness for C6 (amended) on scores 0.9 / 0.8 / 0.7: the returned
confidence is exactly 0.8. -/
theorem rag_confidence_rounded_mean_witness :
    ∃ resp, (query "Q str" (.ok [0])
        (.ok [⟨"a", "t", 9/10, some 1, none⟩, ⟨"b", "t", 8/10, some 2, none⟩,
              ⟨"c", "t", 7/10, some 3, none⟩]) (.ok "ans") 0).result = .ok resp
      ∧ resp.confidence = 8/10 := by
  obtain ⟨resp, h1, h2⟩ := rag_confidence_rounded_mean "Q str" [0]
    [⟨"a", "t", 9/10, some 1, none⟩, ⟨"b", "t", 8/10, some 2, none⟩,
     ⟨"c", "t", 7/10, some 3, none⟩] "ans" 0 (by decide) (by decide)
  refine ⟨resp, h1, ?_⟩
  rw [h2]
  have hmean : (([⟨"a", "t", 9/10, some 1, none⟩, ⟨"b", "t", 8/10, some 2, none⟩,
        (⟨"c", "t", 7/10, some 3, none⟩ : SearchResult)].map
          SearchResult.similarity_score).sum
        / (([⟨"a", "t", 9/10, some 1, none⟩, ⟨"b", "t", 8/10, some 2, none⟩,
             (⟨"c", "t", 7/10, some 3, none⟩ : SearchResult)] : List SearchResult).length : ℚ))
      = (8 : ℚ)/10 := by
    simp only [List.map_cons, List.map_nil, List.sum_cons, List.sum_nil,
      List.length_cons, List.length_nil]
    norm_num
  rw [hmean, max_eq_right (by norm_num), min_eq_right (by norm_num)]
  have h800 := round3_eq ((8 : ℚ)/10) 800 (by norm_num) (by norm_num)
  rw [h800]; norm_num

/-- C7 counterexample: the sources list does not always contain one
citation per retrieved chunk.  A chunk whose metadata carries `page = 0`
fails the pydantic `ge=1` validation; the source catches the error and
skips the citation, so one chunk is retrieved (`chunks_used = 1`) but
`sources` is empty. -/
theorem rag_citation_dropped_counterexample :
    (query "Q str" (.ok [0])
        (.ok [⟨"doc.pdf", "txt", 9/10, some 1, some 0⟩]) (.ok "ans") 0).result
      = .ok { question := "Q str", answer := "ans", sources := [],
              confidence := 9/10, chunks_used := 1, query_time_ms := 0 }
    ∧ ([] : List SourceCitation).length
        ≠ [(⟨"doc.pdf", "txt", 9/10, some 1, some 0⟩ : SearchResult)].length := by
  constructor
  · rw [query_grounded_ok "Q str" [0]
      [⟨"doc.pdf", "txt", 9/10, some 1, some 0⟩] "ans" 0 (by decide) (by decide)]
    have hcit : mkCitation ⟨"doc.pdf", "txt", 9/10, some 1, some 0⟩ = none := by
      simp only [mkCitation]
      rw [if_neg]
      intro h
      simpa [pageOk] using h.2.2
    refine congrArg Except.ok ?_
    rw [RAGResponse.mk.injEq]
    refine ⟨by decide, by decide, ?_, ?_, by decide, rfl⟩
    · simp [hcit]
    · have hmean : (([(⟨"doc.pdf", "txt", 9/10, some 1, some 0⟩ :
          SearchResult)].map SearchResult.similarity_score).sum
          / (([(⟨"doc.pdf", "txt", 9/10, some 1, some 0⟩ :
            SearchResult)] : List SearchResult).length : ℚ)) = (9 : ℚ)/10 := by
        simp
      rw [hmean, max_eq_right (by norm_num), min_eq_right (by norm_num)]
      have h900 := round3_eq ((9 : ℚ)/10) 900 (by norm_num) (by norm_num)
      rw [h900]; norm_num
  · simp

/-- A successfully built citation carries the fields prescribed by the
source: document name, parsed chunk id, similarity rounded to 3 decimals,
and the metadata page number (absent when absent — never invented). -/
theorem mkCitation_eq_some {r : SearchResult} {c : SourceCitation}
    (h : mkCitation r = some c) : CitationOf r c := by
  cases hid : r.chunk_id with
  | none =>
    simp only [mkCitation, hid] at h
    exact absurd h (by simp)
  | some cid =>
    simp only [mkCitation, hid] at h
    by_cases hv : 0 ≤ round3 r.similarity_score ∧ round3 r.similarity_score ≤ 1
        ∧ pageOk r.page
    · rw [if_pos hv] at h
      have hc : c = ⟨r.document_name, cid, round3 r.similarity_score, r.page⟩ :=
        (Option.some.inj h).symm
      subst hc
      exact ⟨rfl, hid.symm, rfl, rfl⟩
    · rw [if_neg hv] at h
      exact absurd h (by simp)

/-- Over any list, `filterMap` pairs, in order, exactly the elements on
which the function succeeds with its outputs. -/
theorem filter_forall₂_filterMap {α β : Type} (f : α → Option β) (P : α → β → Prop)
    (hf : ∀ a b, f a = some b → P a b) :
    ∀ l : List α, List.Forall₂ P (l.filter (fun a => (f a).isSome)) (l.filterMap f)
  | [] => by simp
  | a :: l => by
    cases h : f a with
    | none =>
      rw [List.filterMap_cons_none h]
      have hs : ((f a).isSome) = false := by rw [h]; rfl
      simp only [List.filter_cons, hs, Bool.false_eq_true, if_false]
      exact filter_forall₂_filterMap f P hf l
    | some b =>
      rw [List.filterMap_cons_some h]
      have hs : ((f a).isSome) = true := by rw [h]; rfl
      simp only [List.filter_cons, hs, if_true]
      exact List.Forall₂.cons (hf a b h) (filter_forall₂_filterMap f P hf l)

/-- C7 (amended): for every grounded answer — with any mix of valid and
invalid chunks — the sources list contains exactly one citation per
retrieved chunk that passes citation validation (parseable chunk id,
similarity in [0,1] after rounding, page at least 1 when present), in
retrieval order; each citation carries the source document name, the
chunk id, the similarity rounded to 3 decimals, and a page number exactly
when one is present in the chunk metadata.  Chunks failing validation get
no citation and are silently skipped (see the counterexample). -/
theorem rag_citations_one_per_valid_chunk (question : String) (emb : List ℚ)
    (results : List SearchResult) (content : String) (elapsed : ℚ)
    (hq : pstrip question ≠ "") (hres : results ≠ []) :
    ∃ resp, (query question (.ok emb) (.ok results) (.ok content) elapsed).result
        = .ok resp
      ∧ resp.sources.length
          = (results.filter (fun r => (mkCitation r).isSome)).length
      ∧ List.Forall₂ CitationOf
          (results.filter (fun r => (mkCitation r).isSome)) resp.sources := by
  have hall := filter_forall₂_filterMap mkCitation CitationOf
    (fun a b h => mkCitation_eq_some h) results
  rw [query_grounded_ok question emb results content elapsed hq hres]
  exact ⟨_, rfl, (List.Forall₂.length_eq hall).symm, hall⟩

/-- Witness for C7 (amended) on a mixed result list: an invalid chunk
(metadata page 0) followed by a valid one.  The invalid chunk is skipped
and the valid chunk still gets its citation: the filtered list evaluates
to the valid singleton. -/
theorem rag_citations_one_per_valid_chunk_witness :
    (∃ resp, (query "Q str" (.ok [0])
        (.ok [⟨"bad.pdf", "tx", 9/10, some 1, some 0⟩,
              ⟨"a.pdf", "t", 9/10, some 5, some 2⟩]) (.ok "ans") 0).result
        = .ok resp
      ∧ resp.sources.length
          = ([⟨"bad.pdf", "tx", 9/10, some 1, some 0⟩,
              (⟨"a.pdf", "t", 9/10, some 5, some 2⟩ : SearchResult)].filter
              (fun r => (mkCitation r).isSome)).length
      ∧ List.Forall₂ CitationOf
          ([⟨"bad.pdf", "tx", 9/10, some 1, some 0⟩,
            (⟨"a.pdf", "t", 9/10, some 5, some 2⟩ : SearchResult)].filter
            (fun r => (mkCitation r).isSome)) resp.sources)
    ∧ ([⟨"bad.pdf", "tx", 9/10, some 1, some 0⟩,
        (⟨"a.pdf", "t", 9/10, some 5, some 2⟩ : SearchResult)].filter
        (fun r => (mkCitation r).isSome))
      = [⟨"a.pdf", "t", 9/10, some 5, some 2⟩] :=
  ⟨rag_citations_one_per_valid_chunk "Q str" [0]
      [⟨"bad.pdf", "tx", 9/10, some 1, some 0⟩,
       ⟨"a.pdf", "t", 9/10, some 5, some 2⟩] "ans" 0 (by decide) (by decide),
    by
      have h9 : round3 ((9 : ℚ)/10) = (9 : ℚ)/10 := by
        have := round3_eq ((9 : ℚ)/10) 900 (by norm_num) (by norm_num)
        rw [this]; norm_num
      have hbad : mkCitation ⟨"bad.pdf", "tx", 9/10, some 1, some 0⟩ = none := by
        simp only [mkCitation]
        rw [if_neg]
        intro h
        simpa [pageOk] using h.2.2
      have hok : mkCitation ⟨"a.pdf", "t", 9/10, some 5, some 2⟩
          = some ⟨"a.pdf", 5, 9/10, some 2⟩ := by
        simp only [mkCitation, h9]
        rw [if_pos ⟨by norm_num, by norm_num, by simp [pageOk]⟩]
      simp [List.filter_cons, hbad, hok]⟩

/-! ### Helper lemmas: the fixed-strategy tokenizer -/

/-- One-step unfolding of `tokensL`. -/
theorem tokensL_cons (c : Char) (rest : List Char) :
    tokensL (c :: rest) =
      match tokensL rest with
      | [] => [[c]]
      | [] :: gs => [c] :: gs
      | (d :: g) :: gs =>
        if isWs c = isWs d then (c :: d :: g) :: gs
        else [c] :: (d :: g) :: gs := rfl

/-- Every token produced by the `\S+|\s+` tokenizer is nonempty. -/
theorem tokensL_ne_nil : ∀ (l : List Char), ∀ g ∈ tokensL l, g ≠ []
  | [] => by simp [tokensL]
  | c :: rest => by
    have ih := tokensL_ne_nil rest
    intro g hg
    cases hrec : tokensL rest with
    | nil =>
      simp only [tokensL_cons, hrec] at hg
      simp only [List.mem_singleton] at hg
      subst hg; simp
    | cons t ts =>
      cases t with
      | nil => exact absurd rfl (ih [] (hrec ▸ List.mem_cons_self _ _))
      | cons d g0 =>
        simp only [tokensL_cons, hrec] at hg
        by_cases hws : isWs c = isWs d
        · rw [if_pos hws] at hg
          rcases List.mem_cons.mp hg with h | h
          · subst h; simp
          · exact ih _ (hrec ▸ List.mem_cons_of_mem _ h)
        · rw [if_neg hws] at hg
          rcases List.mem_cons.mp hg with h | h
          · subst h; simp
          · exact ih _ (hrec ▸ h)

/-- The tokenizer partitions the text: concatenating the tokens gives the
original character list back. -/
theorem tokensL_flatten : ∀ (l : List Char), (tokensL l).flatten = l
  | [] => rfl
  | c :: rest => by
    have ih := tokensL_flatten rest
    cases hrec : tokensL rest with
    | nil =>
      have hrest : rest = [] := by rw [← ih, hrec]; rfl
      subst hrest
      simp [tokensL]
    | cons t ts =>
      cases t with
      | nil => exact absurd rfl (tokensL_ne_nil rest [] (hrec ▸ List.mem_cons_self _ _))
      | cons d g0 =>
        rw [hrec] at ih
        by_cases hws : isWs c = isWs d
        · simp only [tokensL_cons, hrec, if_pos hws]
          simp only [List.flatten_cons] at ih ⊢
          simp [← ih]
        · simp only [tokensL_cons, hrec, if_neg hws]
          simp only [List.flatten_cons] at ih ⊢
          simp [← ih]

/-! ### C4: fixed-strategy reconstruction -/

/-- C4 counterexample: exact reconstruction fails because `_split_fixed`
strips each chunk.  On `"a b"` with `chunk_size = 2`, `overlap = 0`
(valid parameters, nothing to remove), the chunks are `["a", "b"]` and
concatenating them yields `"ab"`, not the original text. -/
theorem fixed_reconstruction_counterexample :
    splitFixed "a b" 2 0 = ["a", "b"]
    ∧ String.join (splitFixed "a b" 2 0) ≠ "a b" := by
  decide

/-- Dropping the overlap keeps the first `chunk_size - overlap` tokens of
every window; those prefixes partition the token list. -/
theorem fixedWindowsF_reconstruct (cs ov : Nat) (toks : List (List Char))
    (hov : ov < cs) :
    ∀ fuel idx, toks.length - idx ≤ fuel →
      ((fixedWindowsF cs ov toks fuel idx).map
        (fun w => (w.take (cs - ov)).flatten)).flatten = (toks.drop idx).flatten
  | 0, idx, hfuel => by
    have hle : toks.length ≤ idx := by omega
    rw [List.drop_eq_nil_of_le hle]
    rfl
  | fuel + 1, idx, hfuel => by
    by_cases hidx : idx < toks.length
    · have ha : 1 ≤ cs - ov := by omega
      have hmax : max 1 (cs - ov) = cs - ov := Nat.max_eq_right ha
      have hrec := fixedWindowsF_reconstruct cs ov toks hov fuel (idx + (cs - ov))
        (by omega)
      simp only [fixedWindowsF, if_pos hidx, hmax, List.map_cons, List.flatten_cons,
        hrec]
      rw [List.take_take, Nat.min_eq_left (by omega : cs - ov ≤ cs)]
      rw [← List.drop_drop, ← List.flatten_append, List.take_append_drop]
    · simp only [fixedWindowsF, if_neg hidx, List.map_nil, List.flatten_nil]
      rw [List.drop_eq_nil_of_le (by omega)]
      rfl

/-- C4 (amended): the fixed-strategy token windows, with the overlapping
token spans removed, concatenate back to the original text exactly; the
emitted chunks are these windows joined and then stripped of surrounding
whitespace, so reconstruction from the emitted chunks themselves holds
only up to the whitespace trimmed at chunk boundaries (see the
counterexample). -/
theorem fixed_windows_reconstruct (text : String) (cs ov : Nat) (hov : ov < cs) :
    String.mk (((fixedWindows text cs ov).map
      (fun w => (w.take (cs - ov)).flatten)).flatten) = text := by
  have h := fixedWindowsF_reconstruct cs ov (tokensL text.data) hov
    (tokensL text.data).length 0 (by omega)
  rw [fixedWindows, h, List.drop_zero, tokensL_flatten]

/-- Witness for C4 (amended) at `"a b"`, `chunk_size = 2`, `overlap = 1`. -/
theorem fixed_windows_reconstruct_witness :
    String.mk (((fixedWindows "a b" 2 1).map
      (fun w => (w.take (2 - 1)).flatten)).flatten) = "a b" :=
  fixed_windows_reconstruct "a b" 2 1 (by decide)

/-! ### C2: fixed-strategy chunk count -/

/-- Every token is homogeneous: all of its characters are whitespace, or
none is. -/
theorem tokensL_homog : ∀ (l : List Char), ∀ g ∈ tokensL l,
    ∀ a ∈ g, ∀ b ∈ g, isWs a = isWs b
  | [] => by simp [tokensL]
  | c :: rest => by
    have ih := tokensL_homog rest
    intro g hg a ha b hb
    cases hrec : tokensL rest with
    | nil =>
      simp only [tokensL_cons, hrec, List.mem_singleton] at hg
      subst hg
      simp only [List.mem_singleton] at ha hb
      subst ha; subst hb; rfl
    | cons t ts =>
      cases t with
      | nil => exact absurd rfl (tokensL_ne_nil rest [] (hrec ▸ List.mem_cons_self _ _))
      | cons d g0 =>
        simp only [tokensL_cons, hrec] at hg
        have hdg : ∀ x ∈ (d :: g0), isWs x = isWs d := fun x hx =>
          ih (d :: g0) (hrec ▸ List.mem_cons_self _ _) x hx d (List.mem_cons_self _ _)
        by_cases hws : isWs c = isWs d
        · rw [if_pos hws] at hg
          rcases List.mem_cons.mp hg with h | h
          · subst h
            have hall : ∀ x ∈ (c :: d :: g0), isWs x = isWs d := by
              intro x hx
              rcases List.mem_cons.mp hx with h2 | h2
              · subst h2; exact hws
              · exact hdg x h2
            rw [hall a ha, hall b hb]
          · exact ih g (hrec ▸ List.mem_cons_of_mem _ h) a ha b hb
        · rw [if_neg hws] at hg
          rcases List.mem_cons.mp hg with h | h
          · subst h
            simp only [List.mem_singleton] at ha hb
            subst ha; subst hb; rfl
          · exact ih g (hrec ▸ h) a ha b hb

/-- Adjacent tokens have different whitespace classes (the runs are
maximal). -/
theorem tokensL_chain : ∀ (l : List Char),
    List.Chain' (fun g h => ∀ a ∈ g.head?, ∀ b ∈ h.head?, isWs a ≠ isWs b)
      (tokensL l)
  | [] => by simp [tokensL]
  | c :: rest => by
    have ih := tokensL_chain rest
    cases hrec : tokensL rest with
    | nil => simp [tokensL_cons, hrec]
    | cons t ts =>
      cases t with
      | nil => exact absurd rfl (tokensL_ne_nil rest [] (hrec ▸ List.mem_cons_self _ _))
      | cons d g0 =>
        rw [hrec] at ih
        by_cases hws : isWs c = isWs d
        · simp only [tokensL_cons, hrec, if_pos hws]
          cases ts with
          | nil => simp
          | cons t2 ts2 =>
            rw [List.chain'_cons] at ih ⊢
            refine ⟨?_, ih.2⟩
            intro a haq b hbq
            simp only [List.head?_cons, Option.mem_def, Option.some.injEq] at haq
            subst haq
            have := ih.1 d (by simp) b hbq
            rw [hws]
            exact this
        · simp only [tokensL_cons, hrec, if_neg hws]
          rw [List.chain'_cons]
          refine ⟨?_, ih⟩
          intro a haq b hbq
          simp only [List.head?_cons, Option.mem_def, Option.some.injEq] at haq hbq
          subst haq; subst hbq
          exact hws

/-- A character list containing a non-whitespace character does not strip
to the empty list. -/
theorem pstripL_ne_nil_of_mem {l : List Char} {c : Char} (hc : c ∈ l)
    (hw : isWs c = false) : pstripL l ≠ [] := by
  have hc1 : c ∈ l.dropWhile isWs := by
    have hsplit : c ∈ l.takeWhile isWs ++ l.dropWhile isWs := by
      rw [List.takeWhile_append_dropWhile]; exact hc
    rcases List.mem_append.mp hsplit with h | h
    · have := List.mem_takeWhile_imp h
      rw [hw] at this
      exact absurd this (by simp)
    · exact h
  have hc2 : c ∈ (l.dropWhile isWs).reverse.dropWhile isWs := by
    have hrev : c ∈ (l.dropWhile isWs).reverse := List.mem_reverse.mpr hc1
    have hsplit : c ∈ (l.dropWhile isWs).reverse.takeWhile isWs
        ++ (l.dropWhile isWs).reverse.dropWhile isWs := by
      rw [List.takeWhile_append_dropWhile]; exact hrev
    rcases List.mem_append.mp hsplit with h | h
    · have := List.mem_takeWhile_imp h
      rw [hw] at this
      exact absurd this (by simp)
    · exact h
  intro h
  unfold pstripL at h
  rw [List.reverse_eq_nil_iff] at h
  rw [h] at hc2
  exact absurd hc2 (List.not_mem_nil c)

/-- Every window visited by the `_split_fixed` loop contains a
non-whitespace character, provided the chunk size is at least 2 and the
text does not end in whitespace; hence the window strips to a nonempty
chunk. -/
theorem window_strip_ne_nil (text : String) (cs : Nat) (hcs : 2 ≤ cs)
    (hne : text.data ≠ []) (hlast : isWs (text.data.getLast hne) = false)
    (j : Nat) (hj : j < (tokensL text.data).length) :
    pstripL (((tokensL text.data).drop j).take cs).flatten ≠ [] := by
  cases hdp : (tokensL text.data).drop j with
  | nil =>
    have := List.drop_eq_nil_iff.mp hdp
    omega
  | cons g dp' =>
    have hgmem : g ∈ tokensL text.data := by
      have : g ∈ (tokensL text.data).drop j := by rw [hdp]; simp
      exact List.mem_of_mem_drop this
    have hgne : g ≠ [] := tokensL_ne_nil _ g hgmem
    cases dp' with
    | nil =>
      -- the final window consists of the last token, which contains the
      -- the final character of the text
      have htk : (tokensL text.data).take j ++ [g] = tokensL text.data := by
        rw [← hdp, List.take_append_drop]
      have hflat : ((tokensL text.data).take j).flatten ++ g = text.data := by
        have := congrArg List.flatten htk
        rw [List.flatten_append] at this
        simpa [tokensL_flatten] using this
      have hglast : g.getLast hgne ∈ g := List.getLast_mem hgne
      have hlastc : isWs (g.getLast hgne) = false := by
        have h1 : text.data.getLast? = some (g.getLast hgne) := by
          rw [← hflat, List.getLast?_append_of_ne_nil _ hgne,
            List.getLast?_eq_getLast g hgne]
        have h2 : text.data.getLast? = some (text.data.getLast hne) :=
          List.getLast?_eq_getLast _ hne
        rw [h1] at h2
        have h3 := Option.some.inj h2
        rw [← h3] at hlast
        exact hlast
      have hwin : ([g] : List (List Char)).take cs = [g] :=
        List.take_of_length_le (by simp; omega)
      rw [hwin]
      refine pstripL_ne_nil_of_mem ?_ hlastc
      simp only [List.flatten_cons, List.flatten_nil, List.append_nil]
      exact hglast
    | cons g2 dp2 =>
      -- two adjacent tokens both lie in the window; their classes differ,
      -- so one of them is a run of non-whitespace characters
      have hg2mem : g2 ∈ tokensL text.data := by
        have : g2 ∈ (tokensL text.data).drop j := by rw [hdp]; simp
        exact List.mem_of_mem_drop this
      have hg2ne : g2 ≠ [] := tokensL_ne_nil _ g2 hg2mem
      have hchain := (tokensL_chain text.data).suffix
        (hdp ▸ List.drop_suffix j (tokensL text.data))
      rw [List.chain'_cons] at hchain
      have hrel := hchain.1 (g.head hgne) (List.head_mem_head? hgne)
        (g2.head hg2ne) (List.head_mem_head? hg2ne)
      obtain ⟨k, hk⟩ := Nat.exists_eq_add_of_le hcs
      have hwin : (g :: g2 :: dp2).take cs = g :: g2 :: dp2.take k := by
        rw [hk, show 2 + k = (k + 1) + 1 by omega, List.take_succ_cons,
          List.take_succ_cons]
      rw [hwin]
      cases hB : isWs (g.head hgne) with
      | false =>
        refine pstripL_ne_nil_of_mem ?_ hB
        simp only [List.flatten_cons, List.mem_append]
        exact Or.inl (List.head_mem hgne)
      | true =>
        have hB2 : isWs (g2.head hg2ne) = false := by
          rw [hB] at hrel
          cases h2 : isWs (g2.head hg2ne) with
          | false => rfl
          | true => rw [h2] at hrel; exact absurd rfl hrel
        refine pstripL_ne_nil_of_mem ?_ hB2
        simp only [List.flatten_cons, List.mem_append]
        exact Or.inr (Or.inl (List.head_mem hg2ne))

/-- Every member of the window list is a window of the token list at some
start index below the token count. -/
theorem fixedWindowsF_mem (cs ov : Nat) (toks : List (List Char)) :
    ∀ fuel idx, ∀ w ∈ fixedWindowsF cs ov toks fuel idx,
      ∃ j, j < toks.length ∧ w = (toks.drop j).take cs
  | 0, idx => by simp [fixedWindowsF]
  | fuel + 1, idx => by
    intro w hw
    by_cases hidx : idx < toks.length
    · simp only [fixedWindowsF, if_pos hidx] at hw
      rcases List.mem_cons.mp hw with h | h
      · exact ⟨idx, hidx, h⟩
      · exact fixedWindowsF_mem cs ov toks fuel _ w h
    · simp only [fixedWindowsF, if_neg hidx] at hw
      exact absurd hw (List.not_mem_nil w)

/-- Peeling one step off a ceiling division. -/
theorem ceil_div_succ (r adv : Nat) (h1 : 1 ≤ adv) (h2 : 1 ≤ r) :
    (r - adv + adv - 1) / adv + 1 = (r + adv - 1) / adv := by
  by_cases hra : adv ≤ r
  · have h3 : r - adv + adv - 1 + adv = r + adv - 1 := by omega
    rw [← Nat.add_div_right (r - adv + adv - 1) (by omega), h3]
  · have h4 : r - adv = 0 := by omega
    rw [h4, Nat.zero_add, Nat.div_eq_of_lt (by omega)]
    have h5 : (r + adv - 1) / adv = 1 :=
      Nat.div_eq_of_lt_le (by omega) (by omega)
    omega

/-- The window loop visits exactly `⌈(length - idx) / advance⌉` indices. -/
theorem fixedWindowsF_length (cs ov : Nat) (toks : List (List Char)) :
    ∀ fuel idx, toks.length - idx ≤ fuel →
      (fixedWindowsF cs ov toks fuel idx).length
        = (toks.length - idx + max 1 (cs - ov) - 1) / max 1 (cs - ov)
  | 0, idx, hfuel => by
    have h0 : toks.length - idx = 0 := by omega
    have hadv : 1 ≤ max 1 (cs - ov) := le_max_left _ _
    simp only [fixedWindowsF, List.length_nil, h0, Nat.zero_add]
    exact (Nat.div_eq_of_lt (by omega)).symm
  | fuel + 1, idx, hfuel => by
    have hadv : 1 ≤ max 1 (cs - ov) := le_max_left _ _
    by_cases hidx : idx < toks.length
    · have hrec := fixedWindowsF_length cs ov toks fuel (idx + max 1 (cs - ov))
        (by omega)
      simp only [fixedWindowsF, if_pos hidx, List.length_cons, hrec]
      have hsub : toks.length - (idx + max 1 (cs - ov))
          = toks.length - idx - max 1 (cs - ov) := by omega
      rw [hsub]
      exact ceil_div_succ (toks.length - idx) (max 1 (cs - ov)) hadv (by omega)
    · simp only [fixedWindowsF, if_neg hidx, List.length_nil]
      rw [Nat.div_eq_of_lt (by omega)]

/-- A `filterMap` over a list on which the function never fails keeps the
length. -/
theorem length_filterMap_of_isSome {α β : Type} (f : α → Option β) :
    ∀ l : List α, (∀ x ∈ l, (f x).isSome) → (l.filterMap f).length = l.length
  | [], _ => rfl
  | a :: l, h => by
    obtain ⟨b, hb⟩ := Option.isSome_iff_exists.mp (h a (List.mem_cons_self _ _))
    rw [List.filterMap_cons_some hb, List.length_cons, List.length_cons,
      length_filterMap_of_isSome f l (fun x hx => h x (List.mem_cons_of_mem _ hx))]

/-- C2 counterexample: the fixed-strategy chunk count is not
`ceil(N / (chunk_size - overlap))` for `N` the count reported by the shared
token counter.  On `"a b"` with `chunk_size = 2`, `overlap = 0`: the tokenizer of
`_split_fixed` also counts the whitespace run, giving 3 walk tokens and 2
chunks, while the claimed formula gives `ceil(2/2) = 1`. -/
theorem fixed_chunk_count_counterexample :
    (splitFixed "a b" 2 0).length = 2
    ∧ (countTokens "a b" + (2 - 0) - 1) / (2 - 0) = 1 := by
  decide

/-- C2 (amended): the fixed strategy walks the list of word tokens AND
whitespace-run tokens; with `chunk_size ≥ 2`, `overlap < chunk_size` and a
text not ending in whitespace, the chunk count is exactly
`ceil(M / (chunk_size - overlap))` where `M` counts both kinds of walk
tokens (for a 1200-word single-spaced text `M = 2399`, so
`chunk_size = 500, overlap = 50` yields 6 chunks, not 3). -/
theorem fixed_chunk_count_amended (text : String) (cs ov : Nat)
    (hcs : 2 ≤ cs) (hov : ov < cs) (hne : text.data ≠ [])
    (hlast : isWs (text.data.getLast hne) = false) :
    (splitFixed text cs ov).length
      = ((tokensL text.data).length + (cs - ov) - 1) / (cs - ov) := by
  have hmax : max 1 (cs - ov) = cs - ov := Nat.max_eq_right (by omega)
  have hsome : ∀ w ∈ fixedWindows text cs ov,
      ((fun (w : List (List Char)) =>
        let ct := pstripL w.flatten
        if ct.isEmpty then none else some (String.mk ct)) w).isSome := by
    intro w hw
    obtain ⟨j, hj, hwj⟩ := fixedWindowsF_mem cs ov (tokensL text.data) _ 0 w hw
    subst hwj
    have hnn := window_strip_ne_nil text cs hcs hne hlast j hj
    simp only [Option.isSome_iff_exists]
    rw [if_neg (by simpa [List.isEmpty_iff] using hnn)]
    exact ⟨_, rfl⟩
  rw [splitFixed, length_filterMap_of_isSome _ _ hsome, fixedWindows,
    fixedWindowsF_length cs ov _ _ 0 (by omega), hmax, Nat.sub_zero]

/-- Witness for C2 (amended) at `"a b"`, `chunk_size = 2`, `overlap = 1`:
3 walk tokens, advance 1, hence 3 chunks. -/
theorem fixed_chunk_count_amended_witness :
    (splitFixed "a b" 2 1).length
      = ((tokensL "a b".data).length + (2 - 1) - 1) / (2 - 1) :=
  fixed_chunk_count_amended "a b" 2 1 (by decide) (by decide) (by decide)
    (by decide)

/-! ### C8: sentence/semantic token budget -/

/-- Unfolding `tokenStarts` on a cons. -/
theorem tokenStarts_cons (sep : Bool) (c : Char) (l : List Char) :
    tokenStarts sep (c :: l)
      = (if !isWs c && sep then 1 else 0)
        + tokenStarts (isWs c || isPunct c) l := rfl

/-- Unfolding `sepAfter` on a cons. -/
theorem sepAfter_cons (sep : Bool) (c : Char) (l : List Char) :
    sepAfter sep (c :: l) = sepAfter (isWs c || isPunct c) l := rfl

/-- The count `tokenStarts` splits over an append, threading the separator state. -/
theorem tokenStarts_append (l1 : List Char) : ∀ (l2 : List Char) (sep : Bool),
    tokenStarts sep (l1 ++ l2) = tokenStarts sep l1 + tokenStarts (sepAfter sep l1) l2 := by
  induction l1 with
  | nil => intro l2 sep; simp [tokenStarts, sepAfter]
  | cons c rest ih =>
    intro l2 sep
    rw [List.cons_append, tokenStarts_cons, tokenStarts_cons, sepAfter_cons,
      ih l2 (isWs c || isPunct c)]
    omega

/-- A nonempty run of whitespace characters resets the separator state and
contributes no token start. -/
theorem tokenStarts_wsRun : ∀ (pre : List Char), pre ≠ [] →
    (∀ c ∈ pre, isWs c = true) → ∀ (sep : Bool) (l : List Char),
    tokenStarts sep (pre ++ l) = tokenStarts true l
  | [], h, _ => absurd rfl h
  | c :: rest, _, hws => by
    intro sep l
    have hc : isWs c = true := hws c (List.mem_cons_self _ _)
    rw [List.cons_append, tokenStarts_cons, hc]
    cases rest with
    | nil => simp [tokenStarts]
    | cons d rest2 =>
      rw [tokenStarts_wsRun (d :: rest2) (by simp)
        (fun x hx => hws x (List.mem_cons_of_mem _ hx)) (true || isPunct c) l]
      simp

/-- A text beginning with a non-whitespace character has at least one
token start. -/
theorem tokenStarts_pos (c : Char) (l : List Char) (hc : isWs c = false) :
    0 < tokenStarts true (c :: l) := by
  simp [tokenStarts, hc]

/-- Joining with an all-whitespace separator makes token starts add up. -/
theorem tokenStarts_pyJoinL (sep : List Char) (hsep : sep ≠ [])
    (hsepws : ∀ c ∈ sep, isWs c = true) :
    ∀ us : List (List Char),
      tokenStarts true (pyJoinL sep us) = (us.map (tokenStarts true)).sum
  | [] => by simp [pyJoinL, tokenStarts]
  | [u] => by simp [pyJoinL]
  | u :: v :: rest => by
    have ih := tokenStarts_pyJoinL sep hsep hsepws (v :: rest)
    simp only [pyJoinL]
    rw [List.append_assoc, tokenStarts_append u _ true,
      tokenStarts_wsRun sep hsep hsepws _ _, ih]
    simp

/-- A join of nonempty pieces is nonempty. -/
theorem pyJoinL_ne_nil (sep : List Char) : ∀ us : List (List Char), us ≠ [] →
    (∀ u ∈ us, u ≠ []) → pyJoinL sep us ≠ []
  | [], h, _ => absurd rfl h
  | [u], _, hall => by simpa [pyJoinL] using hall u (List.mem_cons_self _ _)
  | u :: v :: rest, _, hall => by
    simp only [pyJoinL]
    have hu := hall u (List.mem_cons_self _ _)
    cases u with
    | nil => exact absurd rfl hu
    | cons c r => simp

/-- The first character of a `pyJoinL` of nonempty pieces is the first
character of some piece. -/
theorem pyJoinL_head?_mem (sep : List Char) : ∀ us : List (List Char), us ≠ [] →
    (∀ u ∈ us, u ≠ []) → ∃ u, u ∈ us ∧ (pyJoinL sep us).head? = u.head?
  | [], h, _ => absurd rfl h
  | [u], _, _ => ⟨u, List.mem_cons_self _ _, rfl⟩
  | u :: v :: rest, _, hall => by
    refine ⟨u, List.mem_cons_self _ _, ?_⟩
    simp only [pyJoinL]
    have hu := hall u (List.mem_cons_self _ _)
    cases u with
    | nil => exact absurd rfl hu
    | cons c r => rfl

/-- The last character of a `pyJoinL` of nonempty pieces is the last
character of some piece. -/
theorem pyJoinL_getLast?_mem (sep : List Char) : ∀ us : List (List Char),
    us ≠ [] → (∀ u ∈ us, u ≠ []) →
    ∃ u, u ∈ us ∧ (pyJoinL sep us).getLast? = u.getLast?
  | [], h, _ => absurd rfl h
  | [u], _, _ => ⟨u, List.mem_cons_self _ _, rfl⟩
  | u :: v :: rest, _, hall => by
    obtain ⟨w, hw, hlast⟩ := pyJoinL_getLast?_mem sep (v :: rest) (by simp)
      (fun x hx => hall x (List.mem_cons_of_mem _ hx))
    refine ⟨w, List.mem_cons_of_mem _ hw, ?_⟩
    simp only [pyJoinL]
    have hjoin : pyJoinL sep (v :: rest) ≠ [] :=
      pyJoinL_ne_nil sep (v :: rest) (by simp)
        (fun x hx => hall x (List.mem_cons_of_mem _ hx))
    rw [List.getLast?_append_of_ne_nil _ hjoin, hlast]

/-- A `dropWhile` is the identity when the head fails the predicate. -/
theorem dropWhile_eq_self_of_head {p : Char → Bool} {l : List Char}
    (h : ∀ c ∈ l.head?, p c = false) : l.dropWhile p = l := by
  cases l with
  | nil => rfl
  | cons c r =>
    have := h c (by simp)
    simp [List.dropWhile_cons, this]

/-- Python `str.strip` is the identity on a text whose first and last characters
are not whitespace. -/
theorem pstripL_eq_self {l : List Char}
    (hh : ∀ c ∈ l.head?, isWs c = false)
    (hl : ∀ c ∈ l.getLast?, isWs c = false) : pstripL l = l := by
  unfold pstripL
  rw [dropWhile_eq_self_of_head hh,
    dropWhile_eq_self_of_head (by rw [List.head?_reverse]; exact hl),
    List.reverse_reverse]

/-- The head of a `dropWhile` fails the predicate. -/
theorem head?_dropWhile {p : Char → Bool} : ∀ (l : List Char),
    ∀ c ∈ (l.dropWhile p).head?, p c = false
  | [] => by simp
  | a :: r => by
    intro c hc
    by_cases hp : p a
    · rw [List.dropWhile_cons, if_pos hp] at hc
      exact head?_dropWhile r c hc
    · rw [List.dropWhile_cons, if_neg hp] at hc
      simp only [List.head?_cons, Option.mem_def, Option.some.injEq] at hc
      subst hc
      simpa using hp

/-- A nonempty `dropWhile` keeps the last element. -/
theorem getLast?_dropWhile {p : Char → Bool} (l : List Char)
    (h : l.dropWhile p ≠ []) : (l.dropWhile p).getLast? = l.getLast? := by
  conv_rhs => rw [← List.takeWhile_append_dropWhile (p := p) (l := l)]
  rw [List.getLast?_append_of_ne_nil _ h]

/-- The first character of a stripped text is not whitespace. -/
theorem pstripL_head (l : List Char) :
    ∀ c ∈ (pstripL l).head?, isWs c = false := by
  intro c hc
  unfold pstripL at hc
  rw [List.head?_reverse] at hc
  by_cases hB : (l.dropWhile isWs).reverse.dropWhile isWs = []
  · rw [hB] at hc
    exact absurd hc (by simp)
  · rw [getLast?_dropWhile _ hB, List.getLast?_reverse] at hc
    exact head?_dropWhile l c hc

/-- The last character of a stripped text is not whitespace. -/
theorem pstripL_getLast (l : List Char) :
    ∀ c ∈ (pstripL l).getLast?, isWs c = false := by
  intro c hc
  unfold pstripL at hc
  rw [List.getLast?_reverse] at hc
  exact head?_dropWhile _ c hc

/-- The elements of the stripped-and-filtered piece lists built by
`sentencesOf` and `sectionsOf` are nonempty and have non-whitespace first
and last characters. -/
theorem stripped_units {raws : List (List Char)} :
    ∀ u ∈ ((raws.map pstripL).filter (fun l => !l.isEmpty)).map String.mk,
      u.data ≠ [] ∧ (∀ c ∈ u.data.head?, isWs c = false)
        ∧ (∀ c ∈ u.data.getLast?, isWs c = false) := by
  intro u hu
  obtain ⟨l, hl, hlu⟩ := List.mem_map.mp hu
  obtain ⟨hmem, hne⟩ := List.mem_filter.mp hl
  obtain ⟨raw, _, hraw⟩ := List.mem_map.mp hmem
  have hdata : u.data = l := by rw [← hlu]
  have hlne : l ≠ [] := by simpa using hne
  rw [hdata, ← hraw]
  exact ⟨hraw ▸ hlne, pstripL_head raw, pstripL_getLast raw⟩

/-- The token count of one chunk built from a group of stripped nonempty
units is the sum of the token counts of the units. -/
theorem countTokens_chunkOfGroup (sep : String) (hsep : sep.data ≠ [])
    (hsepws : ∀ c ∈ sep.data, isWs c = true) (g : List String) (hg : g ≠ [])
    (hunits : ∀ u ∈ g, u.data ≠ [] ∧ (∀ c ∈ u.data.head?, isWs c = false)
        ∧ (∀ c ∈ u.data.getLast?, isWs c = false)) :
    countTokens (chunkOfGroup sep g) = (g.map countTokens).sum := by
  have hallne : ∀ l ∈ g.map String.data, l ≠ [] := by
    intro l hl
    obtain ⟨u, hu, hul⟩ := List.mem_map.mp hl
    rw [← hul]
    exact (hunits u hu).1
  have hgmapne : g.map String.data ≠ [] := by
    cases g with
    | nil => exact absurd rfl hg
    | cons a l => simp
  have hstrip : pstripL (pyJoinL sep.data (g.map String.data))
      = pyJoinL sep.data (g.map String.data) := by
    refine pstripL_eq_self ?_ ?_
    · obtain ⟨u, hu, hhead⟩ := pyJoinL_head?_mem sep.data (g.map String.data)
        hgmapne hallne
      rw [hhead]
      obtain ⟨v, hv, hvu⟩ := List.mem_map.mp hu
      rw [← hvu]
      exact (hunits v hv).2.1
    · obtain ⟨u, hu, hlast⟩ := pyJoinL_getLast?_mem sep.data (g.map String.data)
        hgmapne hallne
      rw [hlast]
      obtain ⟨v, hv, hvu⟩ := List.mem_map.mp hu
      rw [← hvu]
      exact (hunits v hv).2.2
  have htsu : ∀ u ∈ g, tokenStarts true u.data = countTokens u := by
    intro u hu
    obtain ⟨hne, hhead, _⟩ := hunits u hu
    cases hdu : u.data with
    | nil => exact absurd hdu hne
    | cons c r =>
      have hc : isWs c = false := by
        have := hhead c
        rw [hdu] at this
        exact this (by simp)
      have hpos := tokenStarts_pos c r hc
      rw [countTokens, countTokensL, hdu, Nat.max_eq_right hpos]
  have hjoin := tokenStarts_pyJoinL sep.data hsep hsepws (g.map String.data)
  rw [chunkOfGroup]
  show countTokensL (pstripL (pyJoinL sep.data (g.map String.data))) = _
  rw [hstrip, countTokensL]
  have hpos : 0 < tokenStarts true (pyJoinL sep.data (g.map String.data)) := by
    rw [hjoin]
    cases g with
    | nil => exact absurd rfl hg
    | cons u l =>
      have := htsu u (List.mem_cons_self _ _)
      have hu := hunits u (List.mem_cons_self _ _)
      cases hdu : u.data with
      | nil => exact absurd hdu hu.1
      | cons c r =>
        have hc : isWs c = false := by
          have h2 := hu.2.1 c
          rw [hdu] at h2
          exact h2 (by simp)
        have := tokenStarts_pos c r hc
        simp only [List.map_cons, List.map_map, List.sum_cons]
        have hts : tokenStarts true u.data = tokenStarts true (c :: r) := by rw [hdu]
        omega
  rw [Nat.max_eq_right hpos, hjoin, List.map_map]
  refine congrArg List.sum ?_
  exact List.map_congr_left fun u hu => (htsu u hu ▸ rfl)

/-- The inner accumulation, started nonempty, never exceeds the budget. -/
theorem accumUnits_sum_le (cs : Nat) : ∀ (l : List String) (tc : Nat),
    accumUnits cs tc true l ≠ [] →
    tc + ((accumUnits cs tc true l).map countTokens).sum ≤ cs
  | [], _, h => absurd rfl h
  | u :: rest, tc, h => by
    by_cases hguard : cs < tc + countTokens u
    · rw [accumUnits, if_pos (by exact ⟨hguard, rfl⟩)] at h
      exact absurd rfl h
    · rw [accumUnits, if_neg (by intro hx; exact hguard hx.1)] at h ⊢
      simp only [List.map_cons, List.sum_cons]
      cases hrec : accumUnits cs (tc + countTokens u) true rest with
      | nil => simp only [List.map_nil, List.sum_nil]; omega
      | cons a l2 =>
        have hle := accumUnits_sum_le cs rest (tc + countTokens u)
          (by rw [hrec]; simp)
        rw [hrec] at hle
        omega

/-- The first unit is always taken. -/
theorem accumUnits_first (cs : Nat) (u : String) (rest : List String) :
    accumUnits cs 0 false (u :: rest)
      = u :: accumUnits cs (countTokens u) true rest := by
  rw [accumUnits, if_neg (by simp)]
  rw [Nat.zero_add]

/-- The accumulated units come from the input list. -/
theorem accumUnits_mem (cs : Nat) : ∀ (l : List String) (tc : Nat) (b : Bool),
    ∀ u ∈ accumUnits cs tc b l, u ∈ l
  | [], _, _ => by simp [accumUnits]
  | v :: rest, tc, b => by
    intro u hu
    rw [accumUnits] at hu
    by_cases hguard : cs < tc + countTokens v ∧ b = true
    · rw [if_pos hguard] at hu
      exact absurd hu (List.not_mem_nil u)
    · rw [if_neg hguard] at hu
      rcases List.mem_cons.mp hu with h | h
      · subst h; exact List.mem_cons_self _ _
      · exact List.mem_cons_of_mem _ (accumUnits_mem cs rest _ true u h)

/-- Every group visited by the outer loop is an accumulation started at
some index. -/
theorem groupUnitsF_mem (cs ov : Nat) (units : List String) :
    ∀ fuel idx, ∀ g ∈ groupUnitsF cs ov units fuel idx,
      ∃ j, g = accumUnits cs 0 false (units.drop j)
  | 0, idx => by simp [groupUnitsF]
  | fuel + 1, idx => by
    intro g hg
    by_cases hidx : idx < units.length
    · simp only [groupUnitsF, if_pos hidx] at hg
      rcases List.mem_cons.mp hg with h | h
      · exact ⟨idx, h⟩
      · exact groupUnitsF_mem cs ov units fuel _ g h
    · simp only [groupUnitsF, if_neg hidx] at hg
      exact absurd hg (List.not_mem_nil g)

/-- Core of C8: any group of two or more units assembled by the shared
accumulation loop has a chunk token count within the budget. -/
theorem group_token_budget (cs ov : Nat) (sep : String) (units : List String)
    (hsep : sep.data ≠ []) (hsepws : ∀ c ∈ sep.data, isWs c = true)
    (hunits : ∀ u ∈ units, u.data ≠ [] ∧ (∀ c ∈ u.data.head?, isWs c = false)
        ∧ (∀ c ∈ u.data.getLast?, isWs c = false)) :
    ∀ g ∈ groupUnits cs ov units, 1 < g.length →
      countTokens (chunkOfGroup sep g) ≤ cs := by
  intro g hg hlen
  obtain ⟨j, hj⟩ := groupUnitsF_mem cs ov units _ 0 g hg
  cases hdp : units.drop j with
  | nil =>
    rw [hdp] at hj
    rw [hj] at hlen
    simp [accumUnits] at hlen
  | cons u rest =>
    rw [hdp, accumUnits_first] at hj
    subst hj
    have hglen : accumUnits cs (countTokens u) true rest ≠ [] := by
      intro h
      rw [h] at hlen
      simp at hlen
    have hsum := accumUnits_sum_le cs rest (countTokens u) hglen
    have hgsub : ∀ x ∈ u :: accumUnits cs (countTokens u) true rest, x ∈ units := by
      intro x hx
      rcases List.mem_cons.mp hx with h | h
      · have hu : u ∈ units := List.mem_of_mem_drop (hdp ▸ List.mem_cons_self u rest)
        rw [h]
        exact hu
      · exact List.mem_of_mem_drop
          (hdp ▸ List.mem_cons_of_mem u (accumUnits_mem cs rest _ true x h))
    have hcount := countTokens_chunkOfGroup sep hsep hsepws
      (u :: accumUnits cs (countTokens u) true rest) (by simp)
      (fun x hx => hunits x (hgsub x hx))
    rw [hcount]
    simp only [List.map_cons, List.sum_cons]
    omega

/-- The sentence units of `_split_sentence` are stripped and nonempty. -/
theorem sentencesOf_units (text : String) : ∀ u ∈ sentencesOf text,
    u.data ≠ [] ∧ (∀ c ∈ u.data.head?, isWs c = false)
      ∧ (∀ c ∈ u.data.getLast?, isWs c = false) :=
  stripped_units

/-- The section units of `_split_semantic` are stripped and nonempty. -/
theorem sectionsOf_units (text : String) : ∀ u ∈ sectionsOf text,
    u.data ≠ [] ∧ (∀ c ∈ u.data.head?, isWs c = false)
      ∧ (∀ c ∈ u.data.getLast?, isWs c = false) :=
  stripped_units

/-- C8: for the sentence and semantic strategies, every produced chunk
made of more than one sentence (resp. section) has a token count of at
most `chunk_size`; only a chunk consisting of a single unit may exceed the
budget. -/
theorem sentence_semantic_chunk_budget (text : String) (cs ov : Nat) :
    (∀ g ∈ sentenceGroups text cs ov, 1 < g.length →
      countTokens (chunkOfGroup " " g) ≤ cs)
    ∧ (∀ g ∈ semanticGroups text cs ov, 1 < g.length →
      countTokens (chunkOfGroup nl2 g) ≤ cs) :=
  ⟨group_token_budget cs ov " " (sentencesOf text) (by decide) (by decide)
      (sentencesOf_units text),
    group_token_budget cs ov nl2 (sectionsOf text) (by decide) (by decide)
      (sectionsOf_units text)⟩

/-- Witness for C8 on concrete two-unit groups of both strategies. -/
theorem sentence_semantic_chunk_budget_witness :
    countTokens (chunkOfGroup " " ["One two.", "Three four."]) ≤ 10
    ∧ countTokens (chunkOfGroup nl2 ["One two.", "Three four."]) ≤ 10 :=
  ⟨(sentence_semantic_chunk_budget "One two. Three four." 10 0).1
      ["One two.", "Three four."] (by decide) (by decide),
    (sentence_semantic_chunk_budget (String.mk
        ("One two.".data ++ '\n' :: '\n' :: "Three four.".data)) 10 0).2
      ["One two.", "Three four."] (by decide) (by decide)⟩

end NgoRag
